import Mathlib

/-!
Verification of the exactly/protocol agent-based liquidation simulator
(`src/sim`): a shallow embedding of the liquidator's market-selection
algorithm (`src/sim/agents/liquidator.rs`), the trajectory playback agent
(`src/sim/agents/price_changer.rs`), and the tick loop of
`src/sim/main.rs`, together with theorems settling the specified
behaviour of each.

U256 arithmetic is modelled over `Nat` (additions and multiplications in
the liquidator stay far below 2^256 in the scenarios considered;
`U256` division truncates exactly as `Nat` division does).  Rust panics
(`unwrap` on `None`, `Vec` indexing out of bounds) are modelled as the
`none` / error outcome of the corresponding Lean function, distinct from
the `anyhow::Result` error channel, which for ledger calls is modelled
by an explicit success flag where a claim depends on it.
-/

/-- One fixed-term borrow position (`FixedPosition` of the previewer
binding): principal plus accrued fee. -/
structure FixedPosition where
  principal : Nat
  fee : Nat
  deriving DecidableEq, Repr

/-- The previewer's per-market account snapshot (`MarketAccount`): the
fields of the struct that `Liquidator::check_liquidations` reads.
Market addresses are modelled as `Nat`. -/
structure MarketAccount where
  market : Nat
  floating_borrow_assets : Nat
  fixed_borrow_positions : List FixedPosition
  floating_deposit_assets : Nat
  is_collateral : Bool
  usd_price : Nat
  decimals : Nat
  deriving DecidableEq, Repr

/-- The fixed-term debt folded inside `check_liquidations`:
`fixed_borrow_positions.iter().fold(0, |debt, position| debt +
position.principal + position.fee)`. -/
def fixedDebt (ps : List FixedPosition) : Nat :=
  ps.foldl (fun debt position => debt + position.principal + position.fee) 0

/-- Debt valuation of one market entry, as computed inline in the repay
fold of `check_liquidations` (liquidator.rs lines 65-81):
`(floating_borrow_assets + fixed debt) * usd_price / 10^decimals`. -/
def debtValuation (a : MarketAccount) : Nat :=
  (a.floating_borrow_assets + fixedDebt a.fixed_borrow_positions) * a.usd_price
    / 10 ^ a.decimals

/-- Collateral valuation of one market entry, as computed inline in the
seize fold of `check_liquidations` (liquidator.rs lines 94-96):
`floating_deposit_assets * usd_price / 10^decimals`. -/
def collValuation (a : MarketAccount) : Nat :=
  a.floating_deposit_assets * a.usd_price / 10 ^ a.decimals

/-- Rust's `Iterator::reduce`: `None` on an empty iterator, otherwise a
left fold of the closure seeded with the first element. -/
def reduceList (f : α → α → α) : List α → Option α
  | [] => none
  | x :: xs => some (xs.foldl f x)

/-- The repay-market fold of `check_liquidations` (liquidator.rs lines
62-89): replace the accumulator exactly when the candidate's debt
valuation is strictly greater. -/
def repayChoice (l : List MarketAccount) : Option MarketAccount :=
  reduceList (fun a b => if debtValuation b > debtValuation a then b else a) l

/-- The seize-market fold of `check_liquidations` (liquidator.rs lines
90-104): replace the accumulator exactly when the candidate is flagged
`is_collateral` AND its collateral valuation strictly exceeds the
accumulator's; the accumulator's own flag is never inspected. -/
def seizeChoice (l : List MarketAccount) : Option MarketAccount :=
  reduceList
    (fun a b =>
      if b.is_collateral = true ∧ collValuation b > collValuation a then b else a) l

/-- Ledger state visible to the liquidator for one account: the
`account_liquidity` pair and the previewer snapshot. -/
structure AccountData where
  collateral : Nat
  debt : Nat
  snapshot : List MarketAccount
  deriving DecidableEq, Repr

/-- One `Market::liquidate` submission as built at liquidator.rs lines
105-109. -/
structure LiquidationCall where
  account : Nat
  repayMarket : Nat
  repayAmount : Nat
  seizeMarket : Nat
  deriving DecidableEq, Repr

/-- `U256::MAX`. -/
def U256MAX : Nat := 2 ^ 256 - 1

/-- `Liquidator::check_liquidations` (liquidator.rs lines 42-112) over a
pure ledger view: iterate the watched accounts; skip an account when
`collateral >= debt`; otherwise select repay and seize markets by the
two reduces and submit `liquidate(account, U256::MAX, seize_market)`.
The two `unwrap`s panic on an empty snapshot; the panic is modelled as
`none` (no `anyhow` error value is produced on that path).  Ledger calls
themselves are modelled as succeeding. -/
def checkLiquidations (ledger : Nat → AccountData) : List Nat → Option (List LiquidationCall)
  | [] => some []
  | a :: rest =>
    let d := ledger a
    if d.collateral ≥ d.debt then
      checkLiquidations ledger rest
    else
      match repayChoice d.snapshot, seizeChoice d.snapshot with
      | some r, some s =>
        (checkLiquidations ledger rest).map
          (fun calls =>
            { account := a, repayMarket := r.market, repayAmount := U256MAX,
              seizeMarket := s.market } :: calls)
      | _, _ => none

/-- A concrete snapshot entry with price 1 and 0 decimals, so that
`debtValuation` is the floating borrow and `collValuation` the floating
deposit. -/
def mkMkt (id borrow deposit : Nat) (coll : Bool) : MarketAccount :=
  { market := id, floating_borrow_assets := borrow, fixed_borrow_positions := [],
    floating_deposit_assets := deposit, is_collateral := coll,
    usd_price := 1, decimals := 0 }

/-- Entry A of the seize-selection example: not flagged as collateral,
floating deposit valuation 1000. -/
def seizeA : MarketAccount := mkMkt 1 0 1000 false

/-- Entry B of the seize-selection example: flagged as collateral,
floating deposit valuation 300. -/
def seizeB : MarketAccount := mkMkt 2 0 300 true

/-- Entry A of the repay-selection example: debt valuation 50. -/
def repayA : MarketAccount := mkMkt 1 50 0 true

/-- Entry B of the repay-selection example: debt valuation 80. -/
def repayB : MarketAccount := mkMkt 2 80 0 true

/-- Entry C of the repay-selection example: debt valuation 80, tied with
B but later in iteration order. -/
def repayC : MarketAccount := mkMkt 3 80 0 true

/-- A two-account ledger for concrete checks: account 0 is under water
(collateral 100 < debt 200) with a one-entry snapshot; account 1 sits
exactly at the boundary (collateral = debt = 200). -/
def ledger0 : Nat → AccountData := fun a =>
  if a = 0 then { collateral := 100, debt := 200, snapshot := [mkMkt 1 80 70 true] }
  else { collateral := 200, debt := 200, snapshot := [mkMkt 1 10 300 true] }

/-- The submissions produced by `checkLiquidations` on `ledger0` for the
watched accounts [0, 1]: exactly one, for account 0. -/
def calls0 : List LiquidationCall :=
  [{ account := 0, repayMarket := 1, repayAmount := U256MAX, seizeMarket := 1 }]

/-- A ledger whose only account is under water with an empty previewer
snapshot: the configuration on which the two `unwrap`s panic. -/
def ledger1 : Nat → AccountData := fun _ =>
  { collateral := 0, debt := 1, snapshot := [] }

/-- The value of the f64 health ratio logged by `check_liquidations`:
either +infinity or a finite value.  Finite arithmetic is modelled
exactly over `ℚ` (the concrete values of the claims are exactly
representable in f64). -/
inductive Health where
  | inf : Health
  | val : ℚ → Health
  deriving DecidableEq

/-- `arbiter_core::math::wad_to_float`: a WAD fixed-point integer read
as a real value, i.e. divided by 10^18 (modelled exactly over `ℚ`). -/
def wad_to_float (x : Nat) : ℚ := (x : ℚ) / 10 ^ 18

/-- The health factor computed at liquidator.rs lines 55-59:
`f64::INFINITY` when debt is zero, otherwise
`wad_to_float(collateral) / wad_to_float(debt)`. -/
def healthFactor (collateral debt : Nat) : Health :=
  if debt = 0 then Health.inf
  else Health.val (wad_to_float collateral / wad_to_float debt)

/-- `PriceProcessParameters` (price_changer.rs lines 61-71), f64 fields
modelled over `ℚ`. -/
structure PriceProcessParameters where
  initial_price : ℚ
  mean : ℚ
  std_dev : ℚ
  theta : ℚ
  t_0 : ℚ
  t_n : ℚ
  n_steps : Nat
  seed : Option Nat
  deriving DecidableEq

/-- Modelled from the spec: one step of a linear congruential generator
standing in for the seeded RNG of `arbiter_core` (not part of this
repository); the spec fixes only that the seeded draws are a pure
function of the seed. -/
def lcgStep (s : Nat) : Nat := (6364136223846793005 * s + 1442695040888963407) % 2 ^ 64

/-- Modelled from the spec: the i-th draw of the seeded generator, a
pure function of seed and index (the spec pins the determinism contract,
not the distribution's bits). -/
def seededDraw (seed i : Nat) : ℚ :=
  ((lcgStep^[i + 1] seed : Nat) : ℚ) / 2 ^ 64 - 1 / 2

/-- Modelled from the spec: the Euler-Maruyama discretization of the
Ornstein-Uhlenbeck process computed by `arbiter_core`'s
`euler_maruyama` (outside this repository): sample 0 is initial_price
and X[i+1] = X[i] + theta·(mean − X[i])·dt + std_dev·w(i+1) with
dt = (t_n − t_0)/n_steps, where `w` is the noise stream (the √dt
scaling of the normal draw is folded into the stream, √dt being
irrational over `ℚ`). -/
def emSample (p : PriceProcessParameters) (w : Nat → ℚ) : Nat → ℚ
  | 0 => p.initial_price
  | i + 1 =>
    let dt := (p.t_n - p.t_0) / (p.n_steps : ℚ)
    let x := emSample p w i
    x + p.theta * (p.mean - x) * dt + p.std_dev * w (i + 1)

/-- Modelled from the spec: the generated single-path trajectory has
n_steps + 1 samples, indexed 0..n_steps. -/
def emTrajectory (p : PriceProcessParameters) (w : Nat → ℚ) : List ℚ :=
  (List.range (p.n_steps + 1)).map (emSample p w)

/-- `seedable_euler_maruyama` as called at price_changer.rs line 35: the
noise stream is the seeded generator, a pure function of the seed. -/
def seedableEulerMaruyama (p : PriceProcessParameters) (seed : Nat) : List ℚ :=
  emTrajectory p (seededDraw seed)

/-- `euler_maruyama` (unseeded) as called at price_changer.rs line 37:
the noise stream comes from an ambient entropy source, passed here
explicitly. -/
def eulerMaruyamaEntropy (p : PriceProcessParameters) (entropy : Nat → ℚ) : List ℚ :=
  emTrajectory p entropy

/-- `PriceChanger` (price_changer.rs lines 12-17): the single trajectory
path and the playback cursor (the symbol and price-feed handle carry no
logic and are dropped). -/
structure PriceChanger where
  trajectory : List ℚ
  index : Nat
  deriving DecidableEq

/-- `PriceChanger::new` (price_changer.rs lines 19-46): generate the
trajectory with the seeded generator when `seed` is `Some`, from the
entropy source otherwise; the cursor starts at 1 (index 0 is the
already-applied initial price). -/
def PriceChanger.new (p : PriceProcessParameters) (entropy : Nat → ℚ) : PriceChanger :=
  { trajectory :=
      match p.seed with
      | some seed => seedableEulerMaruyama p seed
      | none => eulerMaruyamaEntropy p entropy,
    index := 1 }

/-- Failure modes of `update_price`: the out-of-bounds trajectory read
(a Rust `Vec` index panic, the spec's TrajectoryExhausted / OutOfRange)
and a failed `set_price` ledger call propagated through `?`. -/
inductive PCError where
  | outOfRange : PCError
  | ledgerFailure : PCError
  deriving DecidableEq

/-- Modelled from the spec: `arbiter_core::math::float_to_wad` (outside
this repository) multiplies the floating value by 10^18 and truncates
toward zero. -/
def float_to_wad (x : ℚ) : Int :=
  if 0 ≤ x then Int.floor (x * 10 ^ 18) else Int.ceil (x * 10 ^ 18)

/-- `PriceChanger::update_price` (price_changer.rs lines 48-58): read
the sample at the cursor (out-of-range read fails), push
`float_to_wad` of it to the price feed — whose success is an explicit
input here, a failure propagating through `?` with the cursor untouched
— then increment the cursor.  The post-state is returned alongside the
outcome, mirroring `&mut self`. -/
def update_price (pc : PriceChanger) (feedOk : Bool) :
    Except PCError Int × PriceChanger :=
  match pc.trajectory[pc.index]? with
  | none => (Except.error PCError.outOfRange, pc)
  | some price =>
    if feedOk then
      (Except.ok (float_to_wad price), { pc with index := pc.index + 1 })
    else
      (Except.error PCError.ledgerFailure, pc)

/-- `k` consecutive `update_price` calls with the price feed accepting
every push; `none` as soon as one call fails. -/
def advanceN (pc : PriceChanger) : Nat → Option PriceChanger
  | 0 => some pc
  | k + 1 =>
    match update_price pc true with
    | (Except.ok _, pc2) => advanceN pc2 k
    | (Except.error _, _) => none

/-- A tiny concrete `PriceChanger` (two samples, cursor at 1) for the
closed witnesses. -/
def pcDemo : PriceChanger := { trajectory := [1, 2], index := 1 }

/-- Concrete seeded parameters (the WETH shape of main.rs lines 98-107,
with a seed and a small step count). -/
def paramsSeeded : PriceProcessParameters :=
  { initial_price := 1850, mean := 1850, std_dev := 1 / 100, theta := 3,
    t_0 := 0, t_n := 100, n_steps := 3, seed := some 7 }

/-- The same concrete parameters without a seed, as main.rs line 106
passes them. -/
def paramsUnseeded : PriceProcessParameters :=
  { initial_price := 1850, mean := 1850, std_dev := 1 / 100, theta := 3,
    t_0 := 0, t_n := 100, n_steps := 3, seed := none }

/-- Events of one simulation run, in the order the driver loop of
main.rs lines 173-178 performs them. -/
inductive SimEvent where
  | priceUpdate : Nat → Nat → SimEvent
  | liquidationScan : Nat → SimEvent
  deriving DecidableEq

/-- The tick an event belongs to. -/
def eventTick : SimEvent → Nat
  | SimEvent.priceUpdate _ t => t
  | SimEvent.liquidationScan t => t

/-- One iteration of the loop body (main.rs lines 174-177):
`update_price` on every tracked market, in the fixed order of the
`markets` vector, then one `check_liquidations` scan. -/
def tickEvents (markets : List Nat) (tick : Nat) : List SimEvent :=
  markets.map (fun m => SimEvent.priceUpdate m tick) ++ [SimEvent.liquidationScan tick]

/-- The loop `for _ in 1..markets[0].2.trajectory.paths[0].len()` of
main.rs line 173: `tickCount` iterations of the tick body, the ticks
numbered from 1. -/
def runTicks (markets : List Nat) (tickCount : Nat) : List SimEvent :=
  ((List.range tickCount).map (fun t => tickEvents markets (t + 1))).flatten

/-- The whole stepping trace of `main`: the tick count is the first
tracked market's trajectory length minus one (main.rs indexes
`markets[0]`, which panics on an empty market list — `main` always has
markets). -/
def mainTrace (markets : List (Nat × PriceChanger)) : List SimEvent :=
  runTicks (markets.map Prod.fst)
    ((markets.head?.elim 0 fun m => m.2.trajectory.length) - 1)

/-- A concrete two-market list sharing `pcDemo`'s two-sample
trajectory. -/
def marketsDemo : List (Nat × PriceChanger) := [(1, pcDemo), (2, pcDemo)]

/-- The "replace on strictly greater" left fold lands on the first
maximum: the start list splits around the result, with strictly smaller
values before it and no larger value after it. -/
lemma foldl_firstMax {α : Type} (f : α → Nat) :
    ∀ (xs : List α) (acc r : α),
      xs.foldl (fun a b => if f b > f a then b else a) acc = r →
      ∃ l₁ l₂, acc :: xs = l₁ ++ r :: l₂ ∧ (∀ a ∈ l₁, f a < f r) ∧
        (∀ a ∈ l₂, f a ≤ f r) := by
  intro xs
  induction xs with
  | nil =>
    intro acc r hr
    simp only [List.foldl_nil] at hr
    subst hr
    exact ⟨[], [], rfl, by simp, by simp⟩
  | cons b xs ih =>
    intro acc r hr
    simp only [List.foldl_cons] at hr
    by_cases hb : f b > f acc
    · rw [if_pos hb] at hr
      obtain ⟨l₁, l₂, heq, h₁, h₂⟩ := ih b r hr
      cases l₁ with
      | nil =>
        simp only [List.nil_append] at heq
        have hbr : b = r := (List.cons.inj heq).1
        have hxl : xs = l₂ := (List.cons.inj heq).2
        refine ⟨[acc], l₂, by simp [hbr, hxl], ?_, h₂⟩
        intro x hx
        rcases List.mem_singleton.mp hx with rfl
        exact hbr ▸ hb
      | cons a l₁' =>
        have hba : b = a := (List.cons.inj heq).1
        have hxs : xs = l₁' ++ r :: l₂ := (List.cons.inj heq).2
        refine ⟨acc :: a :: l₁', l₂, by simp [hba, hxs], ?_, h₂⟩
        intro x hx
        rcases List.mem_cons.mp hx with rfl | hx'
        · exact lt_trans (hba ▸ hb) (h₁ a (List.mem_cons_self a l₁'))
        · exact h₁ x hx'
    · rw [if_neg hb] at hr
      obtain ⟨l₁, l₂, heq, h₁, h₂⟩ := ih acc r hr
      cases l₁ with
      | nil =>
        simp only [List.nil_append] at heq
        have har : acc = r := (List.cons.inj heq).1
        have hxl : xs = l₂ := (List.cons.inj heq).2
        refine ⟨[], b :: xs, by simp [har], by simp, ?_⟩
        intro x hx
        rcases List.mem_cons.mp hx with rfl | hx'
        · exact har ▸ Nat.not_lt.mp hb
        · exact h₂ x (hxl ▸ hx')
      | cons a l₁' =>
        have haa : acc = a := (List.cons.inj heq).1
        have hxs : xs = l₁' ++ r :: l₂ := (List.cons.inj heq).2
        have haccr : f acc < f r := by
          rw [haa]; exact h₁ a (List.mem_cons_self a l₁')
        refine ⟨acc :: b :: l₁', l₂, by simp [hxs], ?_, h₂⟩
        intro x hx
        rcases List.mem_cons.mp hx with rfl | hx'
        · exact haccr
        rcases List.mem_cons.mp hx' with rfl | hx''
        · exact lt_of_le_of_lt (Nat.not_lt.mp hb) haccr
        · exact h₁ x (List.mem_cons_of_mem a hx'')

/-- The seize fold of liquidator.rs: the accumulator is replaced exactly
when the candidate passes the flag test and strictly beats the
accumulator's valuation.  Either nothing ever replaced the seed (and no
flagged element beats the seed), or the result is a flagged element that
strictly beats the seed and every flagged element before it, and is not
beaten by any flagged element after it. -/
lemma foldl_condMax {α : Type} (f : α → Nat) (c : α → Bool) :
    ∀ (xs : List α) (acc r : α),
      xs.foldl (fun a b => if c b = true ∧ f b > f a then b else a) acc = r →
      (r = acc ∧ ∀ b ∈ xs, c b = true → f b ≤ f acc) ∨
      (∃ l₁ l₂, xs = l₁ ++ r :: l₂ ∧ c r = true ∧ f acc < f r ∧
        (∀ b ∈ l₁, c b = true → f b < f r) ∧
        (∀ b ∈ l₂, c b = true → f b ≤ f r)) := by
  intro xs
  induction xs with
  | nil =>
    intro acc r hr
    simp only [List.foldl_nil] at hr
    exact Or.inl ⟨hr.symm, by simp⟩
  | cons b xs ih =>
    intro acc r hr
    simp only [List.foldl_cons] at hr
    by_cases hb : c b = true ∧ f b > f acc
    · rw [if_pos hb] at hr
      rcases ih b r hr with ⟨rfl, hall⟩ | ⟨l₁, l₂, heq, hcr, hlt, h₁, h₂⟩
      · exact Or.inr ⟨[], xs, by simp, hb.1, hb.2, by simp, hall⟩
      · refine Or.inr ⟨b :: l₁, l₂, by simp [heq], hcr, lt_trans hb.2 hlt, ?_, h₂⟩
        intro x hx hcx
        rcases List.mem_cons.mp hx with rfl | hx'
        · exact hlt
        · exact h₁ x hx' hcx
    · rw [if_neg hb] at hr
      rcases ih acc r hr with ⟨req, hall⟩ | ⟨l₁, l₂, heq, hcr, hlt, h₁, h₂⟩
      · refine Or.inl ⟨req, ?_⟩
        intro x hx hcx
        rcases List.mem_cons.mp hx with rfl | hx'
        · exact Nat.not_lt.mp (fun hlt' => hb ⟨hcx, hlt'⟩)
        · exact hall x hx' hcx
      · refine Or.inr ⟨b :: l₁, l₂, by simp [heq], hcr, hlt, ?_, h₂⟩
        intro x hx hcx
        rcases List.mem_cons.mp hx with rfl | hx'
        · exact lt_of_le_of_lt (Nat.not_lt.mp (fun hlt' => hb ⟨hcx, hlt'⟩)) hlt
        · exact h₁ x hx' hcx

/-- `repayChoice` at the list level: the chosen entry is the first
maximum of `debtValuation` in iteration order. -/
lemma repayChoice_firstMax (l : List MarketAccount) (r : MarketAccount)
    (h : repayChoice l = some r) :
    ∃ l₁ l₂, l = l₁ ++ r :: l₂ ∧ (∀ a ∈ l₁, debtValuation a < debtValuation r) ∧
      (∀ a ∈ l₂, debtValuation a ≤ debtValuation r) := by
  match l with
  | [] => exact absurd h (by simp [repayChoice, reduceList])
  | x :: xs =>
    have h' : xs.foldl
        (fun a b => if debtValuation b > debtValuation a then b else a) x = r :=
      Option.some.inj h
    exact foldl_firstMax debtValuation xs x r h'

/-- `seizeChoice` at the list level: the chosen entry is either the
first snapshot entry (its `is_collateral` flag never inspected), or an
`is_collateral` entry strictly beating the first entry and every
`is_collateral` entry before it, with no `is_collateral` entry after it
beating it. -/
lemma seizeChoice_spec (l : List MarketAccount) (r : MarketAccount)
    (h : seizeChoice l = some r) :
    ∃ l₁ l₂, l = l₁ ++ r :: l₂ ∧
      (∀ b ∈ l₂, b.is_collateral = true → collValuation b ≤ collValuation r) ∧
      (l₁ = [] ∨ (r.is_collateral = true ∧
        ∀ b ∈ l₁, b.is_collateral = true → collValuation b < collValuation r)) := by
  match l with
  | [] => exact absurd h (by simp [seizeChoice, reduceList])
  | x :: xs =>
    have h' : xs.foldl
        (fun a b =>
          if b.is_collateral = true ∧ collValuation b > collValuation a then b else a)
        x = r :=
      Option.some.inj h
    rcases foldl_condMax collValuation MarketAccount.is_collateral xs x r h' with
      ⟨rfl, hall⟩ | ⟨l₁, l₂, heq, hcr, hlt, h₁, h₂⟩
    · exact ⟨[], xs, rfl, hall, Or.inl rfl⟩
    · refine ⟨x :: l₁, l₂, by simp [heq], h₂, Or.inr ⟨hcr, ?_⟩⟩
      intro b hb hcb
      rcases List.mem_cons.mp hb with rfl | hb'
      · exact hlt
      · exact h₁ b hb' hcb

/-- C1 counterexample: on the snapshot [A (is_collateral = false,
deposit valuation 1000), B (is_collateral = true, deposit valuation
300)] from the claim itself, `check_liquidations`'s seize fold returns
A — a market not flagged `is_collateral` — and not B, the unique
`is_collateral` market (which the claim says must be chosen). -/
theorem seize_claim_false_at_AB :
    seizeChoice [seizeA, seizeB] = some seizeA ∧
    seizeA.is_collateral = false ∧ seizeB.is_collateral = true ∧
    collValuation seizeA = 1000 ∧ collValuation seizeB = 300 ∧
    seizeChoice [seizeA, seizeB] ≠ some seizeB := by decide

/-- C1 (amended): the seize market is the result of a left fold seeded
with the first snapshot entry whose flag is never inspected; a later
entry replaces the accumulator only when it is flagged `is_collateral`
and its collateral valuation strictly exceeds the accumulator's.  Hence
the chosen entry is either the first snapshot entry, or an
`is_collateral` entry strictly beating every `is_collateral` entry
before it and not beaten by any `is_collateral` entry after it.  In
particular on the snapshot [A (non-collateral, 1000), B (collateral,
300)] the fold returns A, not B. -/
theorem seize_market_fold_spec :
    (∀ (l : List MarketAccount) (r : MarketAccount), seizeChoice l = some r →
      ∃ l₁ l₂, l = l₁ ++ r :: l₂ ∧
        (∀ b ∈ l₂, b.is_collateral = true → collValuation b ≤ collValuation r) ∧
        (l₁ = [] ∨ (r.is_collateral = true ∧
          ∀ b ∈ l₁, b.is_collateral = true → collValuation b < collValuation r))) ∧
    seizeChoice [seizeA, seizeB] = some seizeA :=
  ⟨seizeChoice_spec, by decide⟩

/-- Witness for `seize_market_fold_spec` at the concrete snapshot. -/
theorem seize_market_fold_spec_witness :
    ∃ l₁ l₂, [seizeA, seizeB] = l₁ ++ seizeA :: l₂ ∧
      (∀ b ∈ l₂, b.is_collateral = true → collValuation b ≤ collValuation seizeA) ∧
      (l₁ = [] ∨ (seizeA.is_collateral = true ∧
        ∀ b ∈ l₁, b.is_collateral = true → collValuation b < collValuation seizeA)) :=
  seize_market_fold_spec.1 [seizeA, seizeB] seizeA (by decide)

/-- C3: the repay market chosen by `check_liquidations` is the first
maximum of the debt valuation (floating borrow + Σ (principal + fee)
over fixed positions, times usd_price over 10^decimals) in iteration
order: the snapshot splits around the chosen entry with strictly
smaller valuations before it and no larger valuation after it.  On the
snapshot [A 50, B 80, C 80] the fold returns B (market 2), not C. -/
theorem repay_market_first_strict_max :
    (∀ (l : List MarketAccount) (r : MarketAccount), repayChoice l = some r →
      ∃ l₁ l₂, l = l₁ ++ r :: l₂ ∧
        (∀ a ∈ l₁, debtValuation a < debtValuation r) ∧
        (∀ a ∈ l₂, debtValuation a ≤ debtValuation r)) ∧
    (repayChoice [repayA, repayB, repayC]).map MarketAccount.market = some 2 ∧
    (repayChoice [repayA, repayB, repayC]).map MarketAccount.market ≠ some 3 :=
  ⟨repayChoice_firstMax, by decide, by decide⟩

/-- Witness for `repay_market_first_strict_max` at the concrete
snapshot [A 50, B 80, C 80]. -/
theorem repay_market_first_strict_max_witness :
    ∃ l₁ l₂, [repayA, repayB, repayC] = l₁ ++ repayB :: l₂ ∧
      (∀ a ∈ l₁, debtValuation a < debtValuation repayB) ∧
      (∀ a ∈ l₂, debtValuation a ≤ debtValuation repayB) :=
  repay_market_first_strict_max.1 [repayA, repayB, repayC] repayB (by decide)

/-- `checkLiquidations` on an empty watch list submits nothing. -/
lemma checkLiquidations_nil (ledger : Nat → AccountData) :
    checkLiquidations ledger [] = some [] := rfl

/-- One step of `checkLiquidations`: skip a solvent account, otherwise
run the two selection folds and submit with the `U256::MAX` sentinel. -/
lemma checkLiquidations_cons (ledger : Nat → AccountData) (a : Nat) (rest : List Nat) :
    checkLiquidations ledger (a :: rest) =
      if (ledger a).collateral ≥ (ledger a).debt then
        checkLiquidations ledger rest
      else
        match repayChoice (ledger a).snapshot, seizeChoice (ledger a).snapshot with
        | some r, some s =>
          (checkLiquidations ledger rest).map
            (fun calls =>
              { account := a, repayMarket := r.market, repayAmount := U256MAX,
                seizeMarket := s.market } :: calls)
        | _, _ => none := rfl

/-- Invariant of every submitted call: its account is watched and was
found insolvent, and the repay amount is the `U256::MAX` sentinel. -/
lemma checkLiquidations_calls (ledger : Nat → AccountData) :
    ∀ (accounts : List Nat) (calls : List LiquidationCall),
      checkLiquidations ledger accounts = some calls →
      ∀ c ∈ calls, c.account ∈ accounts ∧
        (ledger c.account).collateral < (ledger c.account).debt ∧
        c.repayAmount = U256MAX := by
  intro accounts
  induction accounts with
  | nil =>
    intro calls h c hc
    rw [checkLiquidations_nil] at h
    rcases Option.some.inj h with rfl
    exact absurd hc (List.not_mem_nil c)
  | cons b rest ih =>
    intro calls h c hc
    rw [checkLiquidations_cons] at h
    by_cases hskip : (ledger b).collateral ≥ (ledger b).debt
    · rw [if_pos hskip] at h
      obtain ⟨h1, h2, h3⟩ := ih calls h c hc
      exact ⟨List.mem_cons_of_mem b h1, h2, h3⟩
    · rw [if_neg hskip] at h
      split at h
      · rcases Option.map_eq_some'.mp h with ⟨restCalls, hrest, rfl⟩
        rcases List.mem_cons.mp hc with rfl | hc'
        · exact ⟨List.mem_cons_self b rest, not_le.mp hskip, rfl⟩
        · obtain ⟨h1, h2, h3⟩ := ih restCalls hrest c hc'
          exact ⟨List.mem_cons_of_mem b h1, h2, h3⟩
      · cases h

/-- Every watched insolvent account gives rise to a submission when the
scan returns normally. -/
lemma checkLiquidations_covers (ledger : Nat → AccountData) :
    ∀ (accounts : List Nat) (calls : List LiquidationCall),
      checkLiquidations ledger accounts = some calls →
      ∀ a ∈ accounts, (ledger a).collateral < (ledger a).debt →
      ∃ c ∈ calls, c.account = a := by
  intro accounts
  induction accounts with
  | nil =>
    intro calls h a ha
    exact absurd ha (List.not_mem_nil a)
  | cons b rest ih =>
    intro calls h a ha hlt
    rw [checkLiquidations_cons] at h
    by_cases hskip : (ledger b).collateral ≥ (ledger b).debt
    · rw [if_pos hskip] at h
      rcases List.mem_cons.mp ha with rfl | ha'
      · exact absurd hskip (not_le.mpr hlt)
      · exact ih calls h a ha' hlt
    · rw [if_neg hskip] at h
      split at h
      · rcases Option.map_eq_some'.mp h with ⟨restCalls, hrest, rfl⟩
        rcases List.mem_cons.mp ha with rfl | ha'
        · exact ⟨_, List.mem_cons_self _ _, rfl⟩
        · obtain ⟨c, hc, hca⟩ := ih restCalls hrest a ha' hlt
          exact ⟨c, List.mem_cons_of_mem _ hc, hca⟩
      · cases h

/-- A liquidatable account with an empty snapshot makes the whole scan
panic (modelled as `none`): the `unwrap` of the empty reduce fires. -/
lemma checkLiquidations_empty_snapshot (ledger : Nat → AccountData) :
    ∀ (accounts : List Nat) (a : Nat), a ∈ accounts →
      (ledger a).collateral < (ledger a).debt → (ledger a).snapshot = [] →
      checkLiquidations ledger accounts = none := by
  intro accounts
  induction accounts with
  | nil =>
    intro a ha
    exact absurd ha (List.not_mem_nil a)
  | cons b rest ih =>
    intro a ha hlt hsnap
    rw [checkLiquidations_cons]
    by_cases hskip : (ledger b).collateral ≥ (ledger b).debt
    · rw [if_pos hskip]
      rcases List.mem_cons.mp ha with rfl | ha'
      · exact absurd hskip (not_le.mpr hlt)
      · exact ih a ha' hlt hsnap
    · rw [if_neg hskip]
      rcases List.mem_cons.mp ha with rfl | ha'
      · rw [hsnap]
        rfl
      · have hrest := ih a ha' hlt hsnap
        split
        · rw [hrest]
          rfl
        · rfl

/-- C2: an account is treated as liquidatable (and produces a liquidate
submission) iff its ledger-reported collateral value is strictly below
its debt value; at equality the account is skipped and no submission
names it. -/
theorem liquidatable_iff_collateral_lt_debt
    (ledger : Nat → AccountData) (accounts : List Nat) (calls : List LiquidationCall)
    (h : checkLiquidations ledger accounts = some calls) (a : Nat) (ha : a ∈ accounts) :
    ((ledger a).collateral < (ledger a).debt ↔ ∃ c ∈ calls, c.account = a) ∧
    ((ledger a).collateral = (ledger a).debt → ∀ c ∈ calls, c.account ≠ a) := by
  have hiff : (ledger a).collateral < (ledger a).debt ↔ ∃ c ∈ calls, c.account = a := by
    constructor
    · exact checkLiquidations_covers ledger accounts calls h a ha
    · rintro ⟨c, hc, rfl⟩
      exact (checkLiquidations_calls ledger accounts calls h c hc).2.1
  refine ⟨hiff, ?_⟩
  intro heq c hc hca
  have hlt := (checkLiquidations_calls ledger accounts calls h c hc).2.1
  rw [hca, heq] at hlt
  exact lt_irrefl _ hlt

/-- Witness for `liquidatable_iff_collateral_lt_debt` on `ledger0`,
checked at account 1, whose collateral equals its debt. -/
theorem liquidatable_iff_collateral_lt_debt_witness :
    (((ledger0 1).collateral < (ledger0 1).debt ↔ ∃ c ∈ calls0, c.account = 1) ∧
     ((ledger0 1).collateral = (ledger0 1).debt → ∀ c ∈ calls0, c.account ≠ 1)) :=
  liquidatable_iff_collateral_lt_debt ledger0 [0, 1] calls0 (by decide) 1 (by decide)

/-- C7: every liquidation submitted by `check_liquidations` carries the
maximum representable repay amount `U256::MAX` = 2^256 - 1 as the
`repay_amount` argument of `Market::liquidate`; no exact repay amount is
ever computed by the selector. -/
theorem liquidate_submits_max_sentinel
    (ledger : Nat → AccountData) (accounts : List Nat) (calls : List LiquidationCall)
    (h : checkLiquidations ledger accounts = some calls) (c : LiquidationCall)
    (hc : c ∈ calls) :
    c.repayAmount = U256MAX ∧ U256MAX = 2 ^ 256 - 1 :=
  ⟨(checkLiquidations_calls ledger accounts calls h c hc).2.2, rfl⟩

/-- Witness for `liquidate_submits_max_sentinel` at the single call
produced on `ledger0`. -/
theorem liquidate_submits_max_sentinel_witness :
    ({ account := 0, repayMarket := 1, repayAmount := U256MAX,
       seizeMarket := 1 } : LiquidationCall).repayAmount = U256MAX ∧
    U256MAX = 2 ^ 256 - 1 :=
  liquidate_submits_max_sentinel ledger0 [0, 1] calls0 (by decide) _
    (List.mem_cons_self _ _)

/-- C9: both selection reduces are `unwrap`ped, so a liquidatable
account whose previewer snapshot is empty makes `check_liquidations`
panic (modelled `none`; no `anyhow` error value is produced), while on
any non-empty snapshot both reduces return `some` and the `unwrap`
branch is unreachable. -/
theorem empty_snapshot_panics :
    (∀ (ledger : Nat → AccountData) (accounts : List Nat) (a : Nat),
      a ∈ accounts → (ledger a).collateral < (ledger a).debt →
      (ledger a).snapshot = [] →
      checkLiquidations ledger accounts = none) ∧
    (∀ l : List MarketAccount, l ≠ [] →
      (repayChoice l).isSome = true ∧ (seizeChoice l).isSome = true) := by
  constructor
  · intro ledger accounts a ha hlt hsnap
    exact checkLiquidations_empty_snapshot ledger accounts a ha hlt hsnap
  · intro l hl
    match l with
    | [] => exact absurd rfl hl
    | x :: xs => exact ⟨rfl, rfl⟩

/-- Witness for `empty_snapshot_panics`: the scan on `ledger1` (one
insolvent account, empty snapshot) panics, and on the one-entry
snapshot `[seizeA]` both reduces return `some`. -/
theorem empty_snapshot_panics_witness :
    checkLiquidations ledger1 [0] = none ∧
    ((repayChoice [seizeA]).isSome = true ∧ (seizeChoice [seizeA]).isSome = true) :=
  ⟨empty_snapshot_panics.1 ledger1 [0] 0 (by decide) (by decide) (by decide),
   empty_snapshot_panics.2 [seizeA] (by decide)⟩

/-- C4: the health factor is +infinity when debt is zero (for any
collateral), and collateral / debt otherwise (the two 10^18 WAD scale
factors cancel); collateral 100 and debt 200 give health 1/2. -/
theorem health_factor_spec :
    (∀ collateral : Nat, healthFactor collateral 0 = Health.inf) ∧
    (∀ collateral debt : Nat, debt ≠ 0 →
      healthFactor collateral debt = Health.val ((collateral : ℚ) / (debt : ℚ))) ∧
    healthFactor 100 200 = Health.val (1 / 2) := by
  have hmain : ∀ collateral debt : Nat, debt ≠ 0 →
      healthFactor collateral debt = Health.val ((collateral : ℚ) / (debt : ℚ)) := by
    intro c d hd
    have hd' : (d : ℚ) ≠ 0 := Nat.cast_ne_zero.mpr hd
    unfold healthFactor wad_to_float
    rw [if_neg hd]
    congr 1
    rw [div_div_div_cancel_right₀]
    norm_num
  refine ⟨fun c => rfl, hmain, ?_⟩
  rw [hmain 100 200 (by norm_num)]
  norm_num

/-- Witness for `health_factor_spec` at collateral 100, debt 200. -/
theorem health_factor_spec_witness :
    healthFactor 100 200 = Health.val ((100 : ℚ) / (200 : ℚ)) :=
  health_factor_spec.2.1 100 200 (by norm_num)

/-- Any trajectory produced by `PriceChanger::new` has n_steps + 1
samples. -/
lemma new_trajectory_length (p : PriceProcessParameters) (entropy : Nat → ℚ) :
    (PriceChanger.new p entropy).trajectory.length = p.n_steps + 1 := by
  unfold PriceChanger.new
  cases hs : p.seed <;>
    simp [seedableEulerMaruyama, eulerMaruyamaEntropy, emTrajectory]

/-- As long as the cursor stays within the trajectory, `k` successful
calls advance it by exactly `k`, one sample per call. -/
lemma advanceN_of_le (traj : List ℚ) :
    ∀ (k i : Nat), i + k ≤ traj.length →
      advanceN { trajectory := traj, index := i } k =
        some { trajectory := traj, index := i + k } := by
  intro k
  induction k with
  | zero =>
    intro i h
    simp [advanceN]
  | succ k ih =>
    intro i h
    have hi : i < traj.length := by omega
    have hget : traj[i]? = some traj[i] := List.getElem?_eq_getElem hi
    have harith : i + 1 + k = i + (k + 1) := by omega
    simp only [advanceN, update_price, hget, if_pos]
    rw [ih (i + 1) (by omega), harith]

/-- C5: the playback cursor starts at 1 into an (n_steps + 1)-sample
trajectory; n_steps successful `update_price` calls each read the
sample at the cursor and advance it by one, ending at n_steps + 1; the
(n_steps + 1)-th call fails out-of-range with the cursor unmoved,
rather than wrapping or re-reading a sample. -/
theorem trajectory_playback_exhausts (p : PriceProcessParameters) (entropy : Nat → ℚ) :
    (PriceChanger.new p entropy).index = 1 ∧
    (PriceChanger.new p entropy).trajectory.length = p.n_steps + 1 ∧
    advanceN (PriceChanger.new p entropy) p.n_steps =
      some { trajectory := (PriceChanger.new p entropy).trajectory,
             index := p.n_steps + 1 } ∧
    update_price { trajectory := (PriceChanger.new p entropy).trajectory,
                   index := p.n_steps + 1 } true =
      (Except.error PCError.outOfRange,
       { trajectory := (PriceChanger.new p entropy).trajectory,
         index := p.n_steps + 1 }) := by
  have hlen := new_trajectory_length p entropy
  refine ⟨rfl, hlen, ?_, ?_⟩
  · have h3 := advanceN_of_le (PriceChanger.new p entropy).trajectory p.n_steps 1
      (by omega)
    have harith : 1 + p.n_steps = p.n_steps + 1 := Nat.add_comm 1 p.n_steps
    rw [harith] at h3
    exact h3
  · have hnone : (PriceChanger.new p entropy).trajectory[p.n_steps + 1]? = none :=
      List.getElem?_eq_none hlen.le
    simp [update_price, hnone]

/-- C10: `update_price` advances the cursor exactly when the feed push
succeeded; on any failure (exhausted trajectory or rejected
`set_price`) the error propagates with the state unchanged, so a failed
call never skips a sample; on success the pushed value is
`float_to_wad` of the sample at the pre-call cursor. -/
theorem update_price_state_on_error (pc : PriceChanger) (feedOk : Bool) :
    (∀ e : PCError, (update_price pc feedOk).1 = Except.error e →
      (update_price pc feedOk).2 = pc) ∧
    (∀ w : Int, (update_price pc feedOk).1 = Except.ok w →
      (update_price pc feedOk).2 = { pc with index := pc.index + 1 } ∧
      feedOk = true ∧
      ∃ price, pc.trajectory[pc.index]? = some price ∧ w = float_to_wad price) := by
  rcases hget : pc.trajectory[pc.index]? with _ | price
  · refine ⟨fun e he => ?_, fun w hw => ?_⟩
    · simp [update_price, hget]
    · simp [update_price, hget] at hw
  · cases feedOk
    · refine ⟨fun e he => ?_, fun w hw => ?_⟩
      · simp [update_price, hget]
      · simp [update_price, hget] at hw
    · refine ⟨fun e he => ?_, fun w hw => ?_⟩
      · simp [update_price, hget] at he
      · have hw' : float_to_wad price = w := by
          simpa [update_price, hget] using hw
        exact ⟨by simp [update_price, hget], rfl, price, rfl, hw'.symm⟩

/-- Witness for `update_price_state_on_error`: a rejected `set_price`
push at `pcDemo` leaves the state unchanged. -/
theorem update_price_state_on_error_witness :
    (update_price pcDemo false).2 = pcDemo :=
  (update_price_state_on_error pcDemo false).1 PCError.ledgerFailure rfl

/-- C8: with a seed present the seeded generator is used and the
trajectory is a pure function of parameters and seed — two generations
under arbitrary different ambient entropy coincide sample-for-sample;
with no seed the trajectory is read from the ambient entropy source. -/
theorem seeded_trajectory_reproducible :
    (∀ (p : PriceProcessParameters) (s : Nat), p.seed = some s →
      ∀ entropy₁ entropy₂ : Nat → ℚ,
        (PriceChanger.new p entropy₁).trajectory =
          (PriceChanger.new p entropy₂).trajectory ∧
        (PriceChanger.new p entropy₁).trajectory = seedableEulerMaruyama p s) ∧
    (∀ (p : PriceProcessParameters) (entropy : Nat → ℚ), p.seed = none →
      (PriceChanger.new p entropy).trajectory = eulerMaruyamaEntropy p entropy) := by
  constructor
  · intro p s hs e1 e2
    simp [PriceChanger.new, hs]
  · intro p entropy hs
    simp [PriceChanger.new, hs]

/-- Witness for `seeded_trajectory_reproducible` at the concrete seeded
and unseeded parameter records, with two different entropy sources. -/
theorem seeded_trajectory_reproducible_witness :
    ((PriceChanger.new paramsSeeded (fun _ => 0)).trajectory =
       (PriceChanger.new paramsSeeded (fun _ => 1)).trajectory ∧
     (PriceChanger.new paramsSeeded (fun _ => 0)).trajectory =
       seedableEulerMaruyama paramsSeeded 7) ∧
    (PriceChanger.new paramsUnseeded (fun _ => 0)).trajectory =
      eulerMaruyamaEntropy paramsUnseeded (fun _ => 0) :=
  ⟨seeded_trajectory_reproducible.1 paramsSeeded 7 rfl (fun _ => 0) (fun _ => 1),
   seeded_trajectory_reproducible.2 paramsUnseeded (fun _ => 0) rfl⟩

/-- Every event of one tick body carries that tick. -/
lemma mem_tickEvents (markets : List Nat) (t : Nat) (e : SimEvent)
    (he : e ∈ tickEvents markets t) : eventTick e = t := by
  rcases List.mem_append.mp he with h | h
  · rcases List.mem_map.mp h with ⟨m, _, rfl⟩
    rfl
  · rcases List.mem_singleton.mp h with rfl
    rfl

/-- Unrolling one iteration of the driver loop. -/
lemma runTicks_succ (markets : List Nat) (n : Nat) :
    runTicks markets (n + 1) = runTicks markets n ++ tickEvents markets (n + 1) := by
  rw [runTicks, runTicks, List.range_succ, List.map_append, List.flatten_append]
  simp

/-- Every event the loop emits belongs to a tick in 1..tickCount. -/
lemma mem_runTicks_tick (markets : List Nat) :
    ∀ (n : Nat) (e : SimEvent), e ∈ runTicks markets n →
      1 ≤ eventTick e ∧ eventTick e ≤ n := by
  intro n
  induction n with
  | zero =>
    intro e he
    simp [runTicks] at he
  | succ n ih =>
    intro e he
    rw [runTicks_succ] at he
    rcases List.mem_append.mp he with h | h
    · have := ih e h
      omega
    · have := mem_tickEvents markets (n + 1) e h
      omega

/-- The events of tick `t` form one contiguous block of the trace — the
price updates of all markets in vector order followed by the tick's
liquidation scan — and no tick-`t` event occurs anywhere else. -/
lemma runTicks_block (markets : List Nat) :
    ∀ (n t : Nat), 1 ≤ t → t ≤ n →
      ∃ pre post,
        runTicks markets n = pre ++ tickEvents markets t ++ post ∧
        (∀ e ∈ pre, eventTick e ≠ t) ∧ (∀ e ∈ post, eventTick e ≠ t) := by
  intro n
  induction n with
  | zero =>
    intro t h1 h2
    omega
  | succ n ih =>
    intro t h1 h2
    by_cases ht : t ≤ n
    · obtain ⟨pre, post, heq, hpre, hpost⟩ := ih t h1 ht
      refine ⟨pre, post ++ tickEvents markets (n + 1), ?_, hpre, ?_⟩
      · rw [runTicks_succ, heq]
        simp [List.append_assoc]
      · intro e he
        rcases List.mem_append.mp he with h | h
        · exact hpost e h
        · rw [mem_tickEvents markets (n + 1) e h]
          omega
    · have htn : t = n + 1 := by omega
      subst htn
      refine ⟨runTicks markets n, [], ?_, ?_, by simp⟩
      · rw [runTicks_succ]
        simp
      · intro e he
        have := mem_runTicks_tick markets n e he
        omega

/-- C6: the stepping trace of `main` runs ticks 1 .. L − 1 where L is
the shared trajectory length of the tracked markets (`main` builds
every market with the same n_steps, so the first market's length, which
the loop bound reads, is the common maximum); within each tick the
price updates of all tracked markets, in the fixed order of the market
vector, form a contiguous block immediately preceding that tick's
liquidation scan, and no tick-`t` event occurs outside that block — so
the scan of a tick never observes a mix of old and new prices. -/
theorem tick_price_updates_precede_scan
    (markets : List (Nat × PriceChanger)) (L : Nat)
    (hne : markets ≠ []) (hall : ∀ m ∈ markets, m.2.trajectory.length = L) :
    mainTrace markets = runTicks (markets.map Prod.fst) (L - 1) ∧
    (∀ e ∈ mainTrace markets, 1 ≤ eventTick e ∧ eventTick e ≤ L - 1) ∧
    (∀ t, 1 ≤ t → t ≤ L - 1 →
      ∃ pre post,
        mainTrace markets =
          pre ++ ((markets.map Prod.fst).map (fun m => SimEvent.priceUpdate m t) ++
            [SimEvent.liquidationScan t]) ++ post ∧
        (∀ e ∈ pre, eventTick e ≠ t) ∧ (∀ e ∈ post, eventTick e ≠ t)) := by
  have hL : (markets.head?.elim 0 fun m => m.2.trajectory.length) = L := by
    cases markets with
    | nil => exact absurd rfl hne
    | cons m ms => simpa using hall m (List.mem_cons_self m ms)
  have htrace : mainTrace markets = runTicks (markets.map Prod.fst) (L - 1) := by
    rw [mainTrace, hL]
  refine ⟨htrace, ?_, ?_⟩
  · intro e he
    rw [htrace] at he
    exact mem_runTicks_tick _ _ e he
  · intro t h1 h2
    obtain ⟨pre, post, heq, hpre, hpost⟩ :=
      runTicks_block (markets.map Prod.fst) (L - 1) t h1 h2
    exact ⟨pre, post, by rw [htrace, heq]; rfl, hpre, hpost⟩

/-- Witness for `tick_price_updates_precede_scan` on the concrete
two-market list with two-sample trajectories (one stepping tick). -/
theorem tick_price_updates_precede_scan_witness :
    mainTrace marketsDemo = runTicks (marketsDemo.map Prod.fst) (2 - 1) ∧
    (∀ e ∈ mainTrace marketsDemo, 1 ≤ eventTick e ∧ eventTick e ≤ 2 - 1) ∧
    (∀ t, 1 ≤ t → t ≤ 2 - 1 →
      ∃ pre post,
        mainTrace marketsDemo =
          pre ++ ((marketsDemo.map Prod.fst).map (fun m => SimEvent.priceUpdate m t) ++
            [SimEvent.liquidationScan t]) ++ post ∧
        (∀ e ∈ pre, eventTick e ≠ t) ∧ (∀ e ∈ post, eventTick e ≠ t)) :=
  tick_price_updates_precede_scan marketsDemo 2 (by simp [marketsDemo])
    (by intro m hm; fin_cases hm <;> rfl)
